import Mathlib

/-!
Verification of the ad9081 channel-topology logic of pyadi-iio.

This file gives a shallow embedding of the pure logic of
src/adi/ad9081.py: the helper functions map_to_dict and sortconv,
the constructor code that builds the DDC/DUC path map and derives the
coarse/fine representative channel-name lists, and the attribute
facade (modelled over an abstract external IIO attribute store).
Python dicts preserve insertion order, so dictionaries are embedded as
association lists; Python exceptions are embedded as Except results.
-/

namespace AD9081

/-! ## Python string primitives used by the source -/

/-- Is the second list a prefix of the first?  Used to model the Python
substring test. -/
def isPre : List Char → List Char → Bool
  | _, [] => true
  | [], _ :: _ => false
  | c :: rest, d :: ds => c = d && isPre rest ds

/-- Does the first list contain the second as a contiguous substring?
Models the Python operator testing substring membership. -/
def hasSub : List Char → List Char → Bool
  | [], sub => sub.isEmpty
  | c :: rest, sub => isPre (c :: rest) sub || hasSub rest sub

/-- Model of the Python substring membership test on strings. -/
def strContains (s sub : String) : Bool := hasSub s.toList sub.toList

/-- Index of the first occurrence of a character in a list, if any. -/
def findIdxFrom (c : Char) : List Char → Option Nat
  | [] => none
  | d :: rest => if d = c then some 0 else (findIdxFrom c rest).map (fun i => i + 1)

/-- Model of Python str.find for a single-character needle: index of the
first occurrence, or -1 when absent. -/
def pyFind (s : String) (c : Char) : Int :=
  match findIdxFrom c s.toList with
  | some i => Int.ofNat i
  | none => -1

/-- Clamp a Python slice endpoint (which may be negative, counting from
the end) into an actual index of a string of length n. -/
def pySliceIdx (n : Nat) (i : Int) : Nat :=
  if i < 0 then (Int.ofNat n + i).toNat else min i.toNat n

/-- Model of the Python slice s[a:b]. -/
def pySlice (s : String) (a b : Int) : String :=
  let l := s.toList
  String.mk ((l.take (pySliceIdx l.length b)).drop (pySliceIdx l.length a))

/-- Value of a list of decimal digit characters. -/
def digitsToNat (l : List Char) : Nat :=
  l.foldl (fun a c => a * 10 + (c.toNat - 48)) 0

/-- Model of Python int() on the strings the source feeds it: a nonempty
all-digit string parses to its decimal value, anything else raises
ValueError (None here).  (The sign/whitespace forms Python would also
accept never arise from the slices taken by the source.) -/
def pyInt (s : String) : Option Int :=
  if (!s.toList.isEmpty) && s.toList.all Char.isDigit then
    some (Int.ofNat (digitsToNat s.toList))
  else none

/-! ## The sort helper sortconv (src/adi/ad9081.py lines 53-78) -/

/-- Embedding of the inner key function ignoreadc:
int(w[len("voltage") : w.find("_")]), with len("voltage") = 7. -/
def ignoreadc (w : String) : Option Int := pyInt (pySlice w 7 (pyFind w '_'))

/-- Embedding of the inner key function ignorealt:
int(w[len("altvoltage") :]), with len("altvoltage") = 10. -/
def ignorealt (w : String) : Option Int :=
  pyInt (pySlice w 10 (Int.ofNat w.toList.length))

/-- Decorate each name with its sort key, as Python sorted(key=...) does;
None when some key application raises. -/
def pyKeyed (filt : String → Option Int) : List String → Option (List (Int × String))
  | [] => some []
  | w :: rest =>
    match filt w, pyKeyed filt rest with
    | some n, some l => some ((n, w) :: l)
    | _, _ => none

/-- Stable insertion of one element into a list sorted ascending by key:
the new element goes before the first element whose key is not smaller,
which preserves the input order of equal keys, as Python timsort does. -/
def insertByKey {α : Type} (key : α → Int) (a : α) : List α → List α
  | [] => [a]
  | b :: rest => if key b < key a then b :: insertByKey key a rest else a :: b :: rest

/-- Stable sort ascending by key, modelling Python sorted(l, key=...). -/
def sortByKey {α : Type} (key : α → Int) : List α → List α
  | [] => []
  | a :: rest => insertByKey key a (sortByKey key rest)

/-- The output loop of sortconv: for each i below len(tmpI), emit
tmpI[i], and when noq is false also tmpQ[i]; indexing tmpQ past its end
raises IndexError. -/
def interleaveIQ (noq : Bool) : List String → List String → Except String (List String)
  | [], _ => Except.ok []
  | x :: rest, q =>
    if noq then
      (interleaveIQ noq rest q).map (fun l => x :: l)
    else
      match q with
      | [] => Except.error "IndexError"
      | y :: qrest => (interleaveIQ noq rest qrest).map (fun l => x :: y :: l)

/-- Embedding of sortconv.  The receive/transmit data-channel sort
partitions the names into those containing the substrings i-underscore
reversed (that is, underscore then i) and underscore then q, keys each
by ignoreadc, sorts each partition stably ascending, and interleaves
positionally; with dds = true the whole input is instead keyed by
ignorealt and emitted without pairing.  Python evaluates the key on
every element of both partitions, so a failing key on either side is a
ValueError even when that side is never indexed. -/
def _sortconv (chans_names : List String) (noq : Bool := false) (dds : Bool := false) :
    Except String (List String) :=
  let tmpQ0 := chans_names.filter (fun k => strContains k "_q")
  let filt := if dds then ignorealt else ignoreadc
  let tmpI0 := if dds then chans_names
    else chans_names.filter (fun k => strContains k "_i")
  let noq1 := if dds then true else noq
  match pyKeyed filt tmpI0, pyKeyed filt tmpQ0 with
  | some kI, some kQ =>
      interleaveIQ noq1 ((sortByKey Prod.fst kI).map Prod.snd)
        ((sortByKey Prod.fst kQ).map Prod.snd)
  | _, _ => Except.error "ValueError"

/-! ## The path-map helper map_to_dict (src/adi/ad9081.py lines 40-50) -/

/-- Model of Python str.split for the two-character separator "->":
scan left to right, cutting at each non-overlapping occurrence. -/
def splitArrowL : List Char → List (List Char)
  | [] => [[]]
  | '-' :: '>' :: rest => [] :: splitArrowL rest
  | c :: rest =>
    match splitArrowL rest with
    | [] => [[c]]
    | h :: t => (c :: h) :: t

/-- Model of Python label.split applied to the separator "->". -/
def pySplitArrow (s : String) : List String := (splitArrowL s.toList).map String.mk

/-- A raw IIO channel as enumerated by the device context: identifier,
optional label attribute, scan-element flag and direction flag. -/
structure Chan where
  id : String
  label : Option String
  scan_element : Bool
  output : Bool
deriving Repr, DecidableEq

/-- The nested path map.  Python dicts preserve insertion order, so each
level is an association list; the innermost leaf is the "channels" list
(the single-key dict {"channels": [...]} of the source holds nothing
else, so it is embedded as the list itself). -/
abbrev FineMap : Type := List (String × List String)

abbrev CoarseMap : Type := List (String × FineMap)

abbrev PathMap : Type := List (String × CoarseMap)

/-- Ordered-dict update: apply f to the value at key k, taking init as
the value when k is absent (a fresh key is appended at the end, as a
fresh Python dict key is). -/
def updAt {α : Type} (k : String) (init : α) (f : α → α) :
    List (String × α) → List (String × α)
  | [] => [(k, f init)]
  | (k', v) :: rest =>
    if k' = k then (k', f v) :: rest else (k', v) :: updAt k init f rest

/-- Ordered-dict lookup. -/
def alistGet {α : Type} (k : String) : List (String × α) → Option α
  | [] => none
  | (k', v) :: rest => if k' = k then some v else alistGet k rest

/-- The nested insertion of map_to_dict: place the channel id at
paths[adc][cddc][fddc], creating each missing intermediate dict and
appending to the leaf channels list when it already exists. -/
def insertPath (paths : PathMap) (adc cddc fddc cid : String) : PathMap :=
  updAt adc [] (updAt cddc [] (updAt fddc [] (fun chans => chans ++ [cid]))) paths

/-- Embedding of map_to_dict: read the label attribute (KeyError when
absent), unpack its split into exactly three tokens fddc, cddc, adc
(ValueError otherwise), and insert the channel id at
paths[adc][cddc][fddc]. -/
def _map_to_dict (paths : PathMap) (ch : Chan) : Except String PathMap :=
  match ch.label with
  | none => Except.error "KeyError"
  | some lab =>
    match pySplitArrow lab with
    | [fddc, cddc, adc] => Except.ok (insertPath paths adc cddc fddc ch.id)
    | _ => Except.error "ValueError"

/-- The path-map construction loop of the constructor
(src/adi/ad9081.py lines 110-115): fold map_to_dict over the channels
that carry a label attribute, skipping the rest. -/
def buildPathMap (chans : List Chan) : Except String PathMap :=
  chans.foldlM
    (fun paths ch => if ch.label.isSome then _map_to_dict paths ch else pure paths) []

/-- Lookup of a leaf channels list at a (converter, coarse, fine) triple. -/
def pmGet (m : PathMap) (adc cddc fddc : String) : Option (List String) :=
  match alistGet adc m with
  | none => none
  | some cm =>
    match alistGet cddc cm with
    | none => none
    | some fm => alistGet fddc fm

/-- All channel identifiers reachable through the path map. -/
def pmIds (m : PathMap) : List String :=
  m.flatMap (fun a => a.2.flatMap (fun c => c.2.flatMap (fun f => f.2)))

/-! ## Channel classification (src/adi/ad9081.py lines 117-125) -/

/-- Receive data channels: scan elements that are not outputs, in
enumeration order. -/
def rxDataNames (chans : List Chan) : List String :=
  (chans.filter (fun ch => ch.scan_element && !ch.output)).map Chan.id

/-- Transmit data channels: scan elements of the transmit device. -/
def txDataNames (chans : List Chan) : List String :=
  (chans.filter (fun ch => ch.scan_element)).map Chan.id

/-- DDS channels: transmit-device channels that are not scan elements. -/
def ddsNames (chans : List Chan) : List String :=
  (chans.filter (fun ch => !ch.scan_element)).map Chan.id

/-! ## Coarse/fine representative derivation (src/adi/ad9081.py lines 132-146) -/

/-- The four lists the derivation loop appends to. -/
structure Derived where
  rx_coarse : List String
  rx_fine : List String
  tx_coarse : List String
  tx_fine : List String
deriving Repr, DecidableEq

/-- One coarse group's filtered channels: concatenate the leaf channels
lists of all fine buckets in insertion order, then keep only the names
containing the substring underscore-i. -/
def groupFiltered (fm : FineMap) : List String :=
  ((fm.map Prod.snd).flatten).filter (fun name => strContains name "_i")

/-- One iteration of the inner derivation loop: for the coarse group fm
of converter conv, take channels[0] (IndexError when the filtered list
is empty) as the coarse representative and all filtered channels as
fine members, appending to the receive-side lists when the converter
key contains "ADC" and to the transmit-side lists otherwise. -/
def deriveStep (conv : String) (acc : Derived) (fm : FineMap) : Except String Derived :=
  match groupFiltered fm with
  | [] => Except.error "IndexError"
  | c0 :: _ =>
    if strContains conv "ADC" then
      Except.ok ⟨acc.rx_coarse ++ [c0], acc.rx_fine ++ groupFiltered fm,
        acc.tx_coarse, acc.tx_fine⟩
    else
      Except.ok ⟨acc.rx_coarse, acc.rx_fine,
        acc.tx_coarse ++ [c0], acc.tx_fine ++ groupFiltered fm⟩

/-- The full derivation loop over the path map, starting from the given
accumulated lists (empty at first construction). -/
def deriveLists (paths : PathMap) (init : Derived) : Except String Derived :=
  paths.foldlM
    (fun acc conv => conv.2.foldlM (fun a cdc => deriveStep conv.1 a cdc.2) acc) init

/-! ## The attribute facade (src/adi/ad9081.py lines 151-364)

The generic attribute-access layer (adi/attribute.py, adi/rx_tx.py) is
not part of the sources under verification; the external device state
is modelled from the spec. -/

/-- Modelled from the spec: the external IIO device state behind the
attribute-access layer (adi/attribute.py, not under src/).  Channel
attributes are keyed by channel name, attribute name and output flag,
in a numeric and a string view; device-level attributes are keyed by
name. -/
structure Dev where
  num : String → String → Bool → Int
  str : String → String → Bool → String
  devAttr : String → Int

/-- Modelled from the spec: numeric channel-attribute read. -/
def _get_iio_attr (d : Dev) (ch attr : String) (out : Bool) : Int := d.num ch attr out

/-- Modelled from the spec: numeric channel-attribute write. -/
def _set_iio_attr (d : Dev) (ch attr : String) (out : Bool) (v : Int) : Dev :=
  { d with num := fun c a o =>
      if c = ch ∧ a = attr ∧ o = out then v else d.num c a o }

/-- Modelled from the spec: string channel-attribute read. -/
def _get_iio_attr_str (d : Dev) (ch attr : String) (out : Bool) : String :=
  d.str ch attr out

/-- Modelled from the spec: string channel-attribute write. -/
def _set_iio_attr_str (d : Dev) (ch attr : String) (out : Bool) (v : String) : Dev :=
  { d with str := fun c a o =>
      if c = ch ∧ a = attr ∧ o = out then v else d.str c a o }

/-- Modelled from the spec: device-level attribute read. -/
def _get_iio_dev_attr (d : Dev) (attr : String) : Int := d.devAttr attr

/-- Modelled from the spec: device-level attribute write. -/
def _set_iio_dev_attr (d : Dev) (attr : String) (v : Int) : Dev :=
  { d with devAttr := fun a => if a = attr then v else d.devAttr a }

/-- Modelled from the spec: vectorized read, one value per name in list
order. -/
def _get_iio_attr_vec (d : Dev) (names : List String) (attr : String) (out : Bool) :
    List Int :=
  names.map (fun n => d.num n attr out)

/-- Modelled from the spec: vectorized write, value i going to name i in
list order. -/
def _set_iio_attr_vec (d : Dev) (names : List String) (attr : String) (out : Bool)
    (vals : List Int) : Dev :=
  (names.zip vals).foldl (fun dd p => _set_iio_attr dd p.1 attr out p.2) d

/-- The ad9081 object state after construction: the path map, the
derived channel-name lists, and the external device state. -/
structure Ad9081 where
  path_map : PathMap
  rx_channel_names : List String
  tx_channel_names : List String
  dds_channel_names : List String
  rx_coarse_ddc_channel_names : List String
  rx_fine_ddc_channel_names : List String
  tx_coarse_duc_channel_names : List String
  tx_fine_duc_channel_names : List String
  dev : Dev

def rx_channel_nco_frequencies_get (s : Ad9081) : List Int :=
  _get_iio_attr_vec s.dev s.rx_fine_ddc_channel_names "channel_nco_frequency" false

def rx_channel_nco_frequencies_set (s : Ad9081) (value : List Int) : Ad9081 :=
  { s with dev :=
      _set_iio_attr_vec s.dev s.rx_fine_ddc_channel_names "channel_nco_frequency" false value }

def rx_channel_nco_phases_get (s : Ad9081) : List Int :=
  _get_iio_attr_vec s.dev s.rx_fine_ddc_channel_names "channel_nco_phase" false

def rx_channel_nco_phases_set (s : Ad9081) (value : List Int) : Ad9081 :=
  { s with dev :=
      _set_iio_attr_vec s.dev s.rx_fine_ddc_channel_names "channel_nco_phase" false value }

def rx_main_nco_frequencies_get (s : Ad9081) : List Int :=
  _get_iio_attr_vec s.dev s.rx_coarse_ddc_channel_names "main_nco_frequency" false

def rx_main_nco_frequencies_set (s : Ad9081) (value : List Int) : Ad9081 :=
  { s with dev :=
      _set_iio_attr_vec s.dev s.rx_coarse_ddc_channel_names "main_nco_frequency" false value }

def rx_main_nco_phases_get (s : Ad9081) : List Int :=
  _get_iio_attr_vec s.dev s.rx_coarse_ddc_channel_names "main_nco_phase" false

def rx_main_nco_phases_set (s : Ad9081) (value : List Int) : Ad9081 :=
  { s with dev :=
      _set_iio_attr_vec s.dev s.rx_coarse_ddc_channel_names "main_nco_phase" false value }

def rx_test_mode_get (s : Ad9081) : String :=
  _get_iio_attr_str s.dev "voltage0_i" "test_mode" false

def rx_test_mode_set (s : Ad9081) (value : String) : Ad9081 :=
  { s with dev := _set_iio_attr_str s.dev "voltage0_i" "test_mode" false value }

def rx_nyquist_zone_get (s : Ad9081) : Int :=
  _get_iio_attr s.dev "voltage0_i" "nyquist_zone" false

def rx_nyquist_zone_set (s : Ad9081) (value : String) : Ad9081 :=
  { s with dev := _set_iio_attr_str s.dev "voltage0_i" "nyquist_zone" false value }

def tx_channel_nco_frequencies_get (s : Ad9081) : List Int :=
  _get_iio_attr_vec s.dev s.tx_fine_duc_channel_names "channel_nco_frequency" true

def tx_channel_nco_frequencies_set (s : Ad9081) (value : List Int) : Ad9081 :=
  { s with dev :=
      _set_iio_attr_vec s.dev s.tx_fine_duc_channel_names "channel_nco_frequency" true value }

def tx_channel_nco_phases_get (s : Ad9081) : List Int :=
  _get_iio_attr_vec s.dev s.tx_fine_duc_channel_names "channel_nco_phase" true

def tx_channel_nco_phases_set (s : Ad9081) (value : List Int) : Ad9081 :=
  { s with dev :=
      _set_iio_attr_vec s.dev s.tx_fine_duc_channel_names "channel_nco_phase" true value }

def tx_main_nco_frequencies_get (s : Ad9081) : List Int :=
  _get_iio_attr_vec s.dev s.tx_coarse_duc_channel_names "main_nco_frequency" true

def tx_main_nco_frequencies_set (s : Ad9081) (value : List Int) : Ad9081 :=
  { s with dev :=
      _set_iio_attr_vec s.dev s.tx_coarse_duc_channel_names "main_nco_frequency" true value }

def tx_main_nco_phases_get (s : Ad9081) : List Int :=
  _get_iio_attr_vec s.dev s.tx_coarse_duc_channel_names "main_nco_phase" true

def tx_main_nco_phases_set (s : Ad9081) (value : List Int) : Ad9081 :=
  { s with dev :=
      _set_iio_attr_vec s.dev s.tx_coarse_duc_channel_names "main_nco_phase" true value }

def tx_main_ffh_frequency_get (s : Ad9081) : Int :=
  _get_iio_attr s.dev "voltage0_i" "main_ffh_frequency" true

def tx_main_ffh_index_get (s : Ad9081) : Int :=
  _get_iio_attr s.dev "voltage0_i" "main_ffh_index" true

def tx_main_ffh_index_set (s : Ad9081) (value : Int) : Ad9081 :=
  { s with dev := _set_iio_attr s.dev "voltage0_i" "main_ffh_index" true value }

/-- Embedding of the tx_main_ffh_frequency setter: first read the
tx_main_ffh_index property; when it is zero raise the documented user
error, leaving the object and the external device untouched; otherwise
write the frequency attribute.  The first component is the outcome (the
raised message or success), the second the resulting state. -/
def tx_main_ffh_frequency_set (s : Ad9081) (value : Int) :
    Except String Unit × Ad9081 :=
  if tx_main_ffh_index_get s = 0 then
    (Except.error "To set a FFH NCO bank frequency, tx_main_ffh_index must > 0", s)
  else
    (Except.ok (),
      { s with dev := _set_iio_attr s.dev "voltage0_i" "main_ffh_frequency" true value })

def tx_main_ffh_mode_get (s : Ad9081) : Int :=
  _get_iio_attr s.dev "voltage0_i" "main_ffh_mode" true

def tx_main_ffh_mode_set (s : Ad9081) (value : Int) : Ad9081 :=
  { s with dev := _set_iio_attr s.dev "voltage0_i" "main_ffh_mode" true value }

def loopback_mode_get (s : Ad9081) : Int := _get_iio_dev_attr s.dev "loopback_mode"

def loopback_mode_set (s : Ad9081) (value : Int) : Ad9081 :=
  { s with dev := _set_iio_dev_attr s.dev "loopback_mode" value }

def rx_sampling_frequency_get (s : Ad9081) : Int :=
  _get_iio_attr s.dev "voltage0_i" "sampling_frequency" false

def adc_frequency_get (s : Ad9081) : Int :=
  _get_iio_attr s.dev "voltage0_i" "adc_frequency" false

def tx_sampling_frequency_get (s : Ad9081) : Int :=
  _get_iio_attr s.dev "voltage0_i" "sampling_frequency" true

def dac_frequency_get (s : Ad9081) : Int :=
  _get_iio_attr s.dev "voltage0_i" "dac_frequency" true

end AD9081


namespace AD9081

/-! ## Lemmas about the stable insertion sort -/

theorem insertByKey_perm {α : Type} (key : α → Int) (a : α) (l : List α) :
    (insertByKey key a l).Perm (a :: l) := by
  induction l with
  | nil => exact List.Perm.refl _
  | cons b rest ih =>
    simp only [insertByKey]
    by_cases h : key b < key a
    · simp only [if_pos h]
      exact (List.Perm.cons b ih).trans (List.Perm.swap a b rest)
    · simp only [if_neg h]
      exact List.Perm.refl _

theorem sortByKey_perm {α : Type} (key : α → Int) (l : List α) :
    (sortByKey key l).Perm l := by
  induction l with
  | nil => exact List.Perm.refl _
  | cons a rest ih =>
    exact (insertByKey_perm key a (sortByKey key rest)).trans (List.Perm.cons a ih)

theorem insertByKey_sorted {α : Type} (key : α → Int) (a : α) {l : List α}
    (h : l.Pairwise (fun x y => key x ≤ key y)) :
    (insertByKey key a l).Pairwise (fun x y => key x ≤ key y) := by
  induction l with
  | nil => exact List.pairwise_singleton _ a
  | cons b rest ih =>
    rcases List.pairwise_cons.mp h with ⟨hb, hrest⟩
    simp only [insertByKey]
    by_cases hlt : key b < key a
    · simp only [if_pos hlt]
      refine List.pairwise_cons.mpr ⟨?_, ih hrest⟩
      intro x hx
      rcases List.mem_cons.mp ((insertByKey_perm key a rest).mem_iff.mp hx) with hxa | hxr
      · exact hxa ▸ le_of_lt hlt
      · exact hb x hxr
    · simp only [if_neg hlt]
      refine List.pairwise_cons.mpr ⟨?_, h⟩
      intro x hx
      rcases List.mem_cons.mp hx with hxb | hxr
      · exact hxb ▸ le_of_not_lt hlt
      · exact le_trans (le_of_not_lt hlt) (hb x hxr)

theorem sortByKey_sorted {α : Type} (key : α → Int) (l : List α) :
    (sortByKey key l).Pairwise (fun x y => key x ≤ key y) := by
  induction l with
  | nil => exact List.Pairwise.nil
  | cons a rest ih => exact insertByKey_sorted key a ih

/-- Sorting any permutation of a list that is already strictly sorted by
key returns that list: insertion order cannot matter when keys are
distinct. -/
theorem sortByKey_eq_target {α : Type} (key : α → Int) {l target : List α}
    (h : l.Perm target) (ht : target.Pairwise (fun x y => key x < key y)) :
    sortByKey key l = target := by
  haveI : IsAntisymm α (fun x y => key x < key y) :=
    ⟨fun a b h1 h2 => absurd h2 (not_lt.mpr (le_of_lt h1))⟩
  have hperm : (sortByKey key l).Perm target := (sortByKey_perm key l).trans h
  have hnd_t : (target.map key).Nodup :=
    List.pairwise_map.mpr (ht.imp fun hx => ne_of_lt hx)
  have hnd_s : ((sortByKey key l).map key).Nodup :=
    ((hperm.map key).nodup_iff).mpr hnd_t
  have hne : (sortByKey key l).Pairwise (fun x y => key x ≠ key y) :=
    List.pairwise_map.mp hnd_s
  have hstrict : (sortByKey key l).Pairwise (fun x y => key x < key y) :=
    ((sortByKey_sorted key l).and hne).imp fun hx => lt_of_le_of_ne hx.1 hx.2
  exact List.eq_of_perm_of_sorted hperm hstrict ht

/-! ## Canonical decimal channel names -/

/-- The decimal digit character for a value below ten. -/
def digitChar : Nat → Char
  | 0 => '0'
  | 1 => '1'
  | 2 => '2'
  | 3 => '3'
  | 4 => '4'
  | 5 => '5'
  | 6 => '6'
  | 7 => '7'
  | 8 => '8'
  | _ => '9'

/-- Decimal digit expansion with explicit fuel (any fuel above the value
is enough), kept fuel-based so that it reduces inside the kernel. -/
def natDigitsAux : Nat → Nat → List Char
  | 0, _ => []
  | fuel + 1, n =>
    if n < 10 then [digitChar n] else natDigitsAux fuel (n / 10) ++ [digitChar (n % 10)]

/-- Canonical decimal digit characters of a natural number. -/
def natDigits (n : Nat) : List Char := natDigitsAux (n + 1) n

/-- The canonical in-phase receive data-channel name for index k. -/
def iname (k : Nat) : String :=
  String.mk ("voltage".toList ++ natDigits k ++ ['_', 'i'])

/-- The canonical quadrature receive data-channel name for index k. -/
def qname (k : Nat) : String :=
  String.mk ("voltage".toList ++ natDigits k ++ ['_', 'q'])

/-- The canonical DDS channel name for index k. -/
def aname (k : Nat) : String :=
  String.mk ("altvoltage".toList ++ natDigits k)

theorem digitChar_isDigit (n : Nat) : (digitChar n).isDigit = true := by
  match n with
  | 0 | 1 | 2 | 3 | 4 | 5 | 6 | 7 | 8 => rfl
  | m + 9 => rfl

theorem digitChar_toNat {n : Nat} (h : n < 10) : (digitChar n).toNat = 48 + n := by
  interval_cases n <;> rfl

theorem digitsToNat_append (l : List Char) (c : Char) :
    digitsToNat (l ++ [c]) = digitsToNat l * 10 + (c.toNat - 48) := by
  simp [digitsToNat, List.foldl_append]

theorem natDigitsAux_spec : ∀ fuel n : Nat, n < fuel →
    natDigitsAux fuel n ≠ [] ∧ (∀ c ∈ natDigitsAux fuel n, c.isDigit = true) ∧
      digitsToNat (natDigitsAux fuel n) = n := by
  intro fuel
  induction fuel with
  | zero => intro n h; omega
  | succ fuel ih =>
    intro n hn
    by_cases h10 : n < 10
    · simp only [natDigitsAux, if_pos h10]
      refine ⟨by simp, ?_, ?_⟩
      · intro c hc
        rw [List.mem_singleton.mp hc]
        exact digitChar_isDigit n
      · simp only [digitsToNat, List.foldl_cons, List.foldl_nil]
        rw [digitChar_toNat h10]
        omega
    · simp only [natDigitsAux, if_neg h10]
      have hrec : n / 10 < fuel := by
        have h1 : n / 10 < n := Nat.div_lt_self (by omega) (by omega)
        omega
      obtain ⟨hne, hdig, hval⟩ := ih (n / 10) hrec
      refine ⟨by simp, ?_, ?_⟩
      · intro c hc
        rcases List.mem_append.mp hc with h1 | h2
        · exact hdig c h1
        · rw [List.mem_singleton.mp h2]
          exact digitChar_isDigit _
      · rw [digitsToNat_append, hval, digitChar_toNat (Nat.mod_lt n (by omega))]
        omega

theorem natDigits_ne_nil (n : Nat) : natDigits n ≠ [] :=
  (natDigitsAux_spec (n + 1) n (by omega)).1

theorem natDigits_isDigit (n : Nat) : ∀ c ∈ natDigits n, c.isDigit = true :=
  (natDigitsAux_spec (n + 1) n (by omega)).2.1

theorem digitsToNat_natDigits (n : Nat) : digitsToNat (natDigits n) = n :=
  (natDigitsAux_spec (n + 1) n (by omega)).2.2

theorem natDigits_no_underscore (n : Nat) : '_' ∉ natDigits n := by
  intro h
  exact absurd (natDigits_isDigit n '_' h) (by decide)

/-! ## Substring lemmas -/

theorem toList_mk (l : List Char) : (String.mk l).toList = l := rfl

theorem isPre_nil_sub (l : List Char) : isPre l [] = true := by
  cases l <;> rfl

theorem isPre_self_append (sub t : List Char) : isPre (sub ++ t) sub = true := by
  induction sub with
  | nil => exact isPre_nil_sub t
  | cons c cs ih => simp [isPre, ih]

theorem hasSub_of_isPre {l sub : List Char} (h : isPre l sub = true) :
    hasSub l sub = true := by
  cases l with
  | nil =>
    cases sub with
    | nil => rfl
    | cons d ds => exact absurd h (by simp [isPre])
  | cons c rest => simp [hasSub, h]

theorem hasSub_of_append (u sub v : List Char) : hasSub (u ++ sub ++ v) sub = true := by
  induction u with
  | nil =>
    simp only [List.nil_append]
    exact hasSub_of_isPre (isPre_self_append sub v)
  | cons c u' ih =>
    simp only [List.cons_append, hasSub, Bool.or_eq_true]
    exact Or.inr ih

theorem hasSub_two_inv {a b : Char} : ∀ {l : List Char}, hasSub l [a, b] = true →
    ∃ u v, l = u ++ a :: b :: v := by
  intro l
  induction l with
  | nil => intro h; simp [hasSub] at h
  | cons c rest ih =>
    intro h
    rcases Bool.or_eq_true_iff.mp h with h1 | h2
    · rcases rest with _ | ⟨d, ds⟩
      · simp [isPre] at h1
      · have h2 : (decide (c = a) && (decide (d = b) && isPre ds [])) = true := h1
        simp only [Bool.and_eq_true, decide_eq_true_eq] at h2
        refine ⟨[], ds, ?_⟩
        rw [h2.1, h2.2.1]
        rfl
    · obtain ⟨u, v, rfl⟩ := ih h2
      exact ⟨c :: u, v, rfl⟩

theorem hasSub_head_mem {a : Char} {sub : List Char} : ∀ {l : List Char},
    hasSub l (a :: sub) = true → a ∈ l := by
  intro l
  induction l with
  | nil => intro h; simp [hasSub] at h
  | cons c rest ih =>
    intro h
    rcases Bool.or_eq_true_iff.mp h with h1 | h2
    · simp only [isPre, Bool.and_eq_true, decide_eq_true_eq] at h1
      rw [h1.1]
      exact List.mem_cons_self _ _
    · exact List.mem_cons_of_mem c (ih h2)

theorem eq_after_underscore {x y : Char} :
    ∀ (p u v : List Char), '_' ∉ p → p ++ ['_', x] = u ++ '_' :: y :: v → y = x := by
  intro p
  induction p with
  | nil =>
    intro u v _ h
    rcases u with _ | ⟨c, u'⟩
    · simp only [List.nil_append, List.cons.injEq] at h
      exact h.2.1.symm
    · simp only [List.nil_append, List.cons_append, List.cons.injEq] at h
      have hlen := congrArg List.length h.2
      simp at hlen
      omega
  | cons c p' ih =>
    intro u v hp h
    rcases u with _ | ⟨c', u'⟩
    · simp only [List.cons_append, List.nil_append, List.cons.injEq] at h
      exact absurd (h.1 ▸ List.mem_cons_self c p') hp
    · simp only [List.cons_append, List.cons.injEq] at h
      exact ih u' v (fun hm => hp (List.mem_cons_of_mem c hm)) h.2

theorem hasSub_underscore {p : List Char} (hp : '_' ∉ p) (x y : Char)
    (h : hasSub (p ++ ['_', x]) ['_', y] = true) : y = x := by
  obtain ⟨u, v, huv⟩ := hasSub_two_inv h
  exact eq_after_underscore p u v hp huv

/-! ## Substring facts about the canonical names -/

theorem voltage_digits_no_underscore (k : Nat) :
    '_' ∉ "voltage".toList ++ natDigits k := by
  intro h
  rcases List.mem_append.mp h with h1 | h2
  · exact absurd h1 (by decide)
  · exact natDigits_no_underscore k h2

theorem strContains_iname_i (k : Nat) : strContains (iname k) "_i" = true := by
  show hasSub ("voltage".toList ++ natDigits k ++ ['_', 'i']) ['_', 'i'] = true
  have h : "voltage".toList ++ natDigits k ++ ['_', 'i'] =
      ("voltage".toList ++ natDigits k) ++ ['_', 'i'] ++ [] := by simp
  rw [h]
  exact hasSub_of_append _ _ _

theorem strContains_qname_q (k : Nat) : strContains (qname k) "_q" = true := by
  show hasSub ("voltage".toList ++ natDigits k ++ ['_', 'q']) ['_', 'q'] = true
  have h : "voltage".toList ++ natDigits k ++ ['_', 'q'] =
      ("voltage".toList ++ natDigits k) ++ ['_', 'q'] ++ [] := by simp
  rw [h]
  exact hasSub_of_append _ _ _

theorem strContains_qname_i (k : Nat) : strContains (qname k) "_i" = false := by
  rw [Bool.eq_false_iff]
  intro h
  have h2 : hasSub (("voltage".toList ++ natDigits k) ++ ['_', 'q']) ['_', 'i'] = true := by
    rw [List.append_assoc]
    exact h
  exact absurd (hasSub_underscore (voltage_digits_no_underscore k) 'q' 'i' h2) (by decide)

theorem strContains_iname_q (k : Nat) : strContains (iname k) "_q" = false := by
  rw [Bool.eq_false_iff]
  intro h
  have h2 : hasSub (("voltage".toList ++ natDigits k) ++ ['_', 'i']) ['_', 'q'] = true := by
    rw [List.append_assoc]
    exact h
  exact absurd (hasSub_underscore (voltage_digits_no_underscore k) 'i' 'q' h2) (by decide)

theorem aname_no_underscore (k : Nat) : '_' ∉ ("altvoltage".toList ++ natDigits k) := by
  intro h
  rcases List.mem_append.mp h with h1 | h2
  · exact absurd h1 (by decide)
  · exact natDigits_no_underscore k h2

theorem strContains_aname_i (k : Nat) : strContains (aname k) "_i" = false := by
  rw [Bool.eq_false_iff]
  intro h
  exact aname_no_underscore k (hasSub_head_mem h)

theorem strContains_aname_q (k : Nat) : strContains (aname k) "_q" = false := by
  rw [Bool.eq_false_iff]
  intro h
  exact aname_no_underscore k (hasSub_head_mem h)

/-! ## Key extraction on the canonical names -/

theorem findIdxFrom_append {t : List Char} :
    ∀ u : List Char, '_' ∉ u → findIdxFrom '_' (u ++ '_' :: t) = some u.length := by
  intro u
  induction u with
  | nil => intro _; simp [findIdxFrom]
  | cons d u' ih =>
    intro h
    have hd : d ≠ '_' := fun hh => h (hh ▸ List.mem_cons_self d u')
    show (if d = '_' then some 0
      else (findIdxFrom '_' (u' ++ '_' :: t)).map (fun i => i + 1)) = some (u'.length + 1)
    rw [if_neg hd, ih (fun hm => h (List.mem_cons_of_mem d hm))]
    rfl

theorem ignoreadc_canonical (d : List Char) (x : Char) (hne : d ≠ [])
    (hdig : ∀ c ∈ d, c.isDigit = true) (hu : '_' ∉ d) :
    ignoreadc (String.mk ("voltage".toList ++ d ++ ['_', x])) =
      some (Int.ofNat (digitsToNat d)) := by
  have hvd : '_' ∉ "voltage".toList ++ d := by
    intro h
    rcases List.mem_append.mp h with h1 | h2
    · exact absurd h1 (by decide)
    · exact hu h2
  have hfind : pyFind (String.mk ("voltage".toList ++ d ++ ['_', x])) '_' =
      Int.ofNat (7 + d.length) := by
    show (match findIdxFrom '_' ("voltage".toList ++ d ++ ['_', x]) with
      | some i => Int.ofNat i
      | none => -1) = Int.ofNat (7 + d.length)
    have h : "voltage".toList ++ d ++ ['_', x] =
        ("voltage".toList ++ d) ++ '_' :: [x] := by simp
    rw [h, findIdxFrom_append ("voltage".toList ++ d) hvd]
    show Int.ofNat ("voltage".toList ++ d).length = Int.ofNat (7 + d.length)
    simp
    omega
  have hslice : pySlice (String.mk ("voltage".toList ++ d ++ ['_', x])) 7
      (Int.ofNat (7 + d.length)) = String.mk d := by
    show String.mk ((("voltage".toList ++ d ++ ['_', x]).take
        (pySliceIdx ("voltage".toList ++ d ++ ['_', x]).length (Int.ofNat (7 + d.length)))).drop
        (pySliceIdx ("voltage".toList ++ d ++ ['_', x]).length 7)) = String.mk d
    have hlen : ("voltage".toList ++ d ++ ['_', x]).length = 9 + d.length := by
      simp
      omega
    have hb : pySliceIdx ("voltage".toList ++ d ++ ['_', x]).length (Int.ofNat (7 + d.length)) =
        7 + d.length := by
      rw [hlen]
      show pySliceIdx (9 + d.length) (Int.ofNat (7 + d.length)) = 7 + d.length
      unfold pySliceIdx
      have hc : ¬(Int.ofNat (7 + d.length) < 0) := not_lt.mpr (Int.ofNat_nonneg _)
      rw [if_neg hc]
      show min (7 + d.length) (9 + d.length) = 7 + d.length
      omega
    have ha : pySliceIdx ("voltage".toList ++ d ++ ['_', x]).length 7 = 7 := by
      rw [hlen]
      unfold pySliceIdx
      rw [if_neg (by decide : ¬((7 : Int) < 0))]
      show min (7 : Int).toNat (9 + d.length) = 7
      have h7 : (7 : Int).toNat = 7 := rfl
      rw [h7]
      omega
    rw [hb, ha]
    have hsplit : "voltage".toList ++ d ++ ['_', x] =
        ("voltage".toList ++ d) ++ ['_', x] := by simp
    rw [hsplit]
    have htake : (("voltage".toList ++ d) ++ ['_', x]).take (7 + d.length) =
        "voltage".toList ++ d := by
      have h7 : 7 + d.length = ("voltage".toList ++ d).length := by simp; omega
      rw [h7]
      exact List.take_left _ _
    rw [htake]
    have hdrop : ("voltage".toList ++ d).drop 7 = d := by
      have h7 : (7 : Nat) = ("voltage".toList).length := by decide
      rw [h7]
      exact List.drop_left _ _
    rw [hdrop]
  show pyInt (pySlice (String.mk ("voltage".toList ++ d ++ ['_', x])) 7
      (pyFind (String.mk ("voltage".toList ++ d ++ ['_', x])) '_')) = _
  rw [hfind, hslice]
  show (if (!d.isEmpty) && d.all Char.isDigit then
      some (Int.ofNat (digitsToNat d)) else none) = some (Int.ofNat (digitsToNat d))
  have h1 : d.isEmpty = false := by
    cases d with
    | nil => exact absurd rfl hne
    | cons c cs => rfl
  have h2 : d.all Char.isDigit = true := List.all_eq_true.mpr hdig
  rw [h1, h2]
  rfl

theorem ignoreadc_iname (k : Nat) : ignoreadc (iname k) = some (Int.ofNat k) := by
  have h := ignoreadc_canonical (natDigits k) 'i' (natDigits_ne_nil k)
    (natDigits_isDigit k) (natDigits_no_underscore k)
  rw [digitsToNat_natDigits] at h
  exact h

theorem ignoreadc_qname (k : Nat) : ignoreadc (qname k) = some (Int.ofNat k) := by
  have h := ignoreadc_canonical (natDigits k) 'q' (natDigits_ne_nil k)
    (natDigits_isDigit k) (natDigits_no_underscore k)
  rw [digitsToNat_natDigits] at h
  exact h

theorem ignorealt_aname (k : Nat) : ignorealt (aname k) = some (Int.ofNat k) := by
  show pyInt (pySlice (aname k) 10 (Int.ofNat (aname k).toList.length)) = _
  have hslice : pySlice (aname k) 10 (Int.ofNat (aname k).toList.length) =
      String.mk (natDigits k) := by
    show String.mk ((("altvoltage".toList ++ natDigits k).take
        (pySliceIdx ("altvoltage".toList ++ natDigits k).length
          (Int.ofNat ("altvoltage".toList ++ natDigits k).length))).drop
        (pySliceIdx ("altvoltage".toList ++ natDigits k).length 10)) = String.mk (natDigits k)
    have hb : pySliceIdx ("altvoltage".toList ++ natDigits k).length
        (Int.ofNat ("altvoltage".toList ++ natDigits k).length) =
        ("altvoltage".toList ++ natDigits k).length := by
      unfold pySliceIdx
      have hc : ¬(Int.ofNat ("altvoltage".toList ++ natDigits k).length < 0) :=
        not_lt.mpr (Int.ofNat_nonneg _)
      rw [if_neg hc]
      show min ("altvoltage".toList ++ natDigits k).length
        ("altvoltage".toList ++ natDigits k).length =
        ("altvoltage".toList ++ natDigits k).length
      omega
    have ha : pySliceIdx ("altvoltage".toList ++ natDigits k).length 10 = 10 := by
      unfold pySliceIdx
      rw [if_neg (by decide : ¬((10 : Int) < 0))]
      show min (10 : Int).toNat ("altvoltage".toList ++ natDigits k).length = 10
      have h10 : (10 : Int).toNat = 10 := rfl
      rw [h10]
      have hlen : ("altvoltage".toList ++ natDigits k).length =
          10 + (natDigits k).length := by simp; omega
      rw [hlen]
      omega
    rw [hb, ha, List.take_length]
    have hdrop : ("altvoltage".toList ++ natDigits k).drop 10 = natDigits k := by
      have h10 : (10 : Nat) = ("altvoltage".toList).length := by decide
      rw [h10]
      exact List.drop_left _ _
    rw [hdrop]
  rw [hslice]
  show (if (!(natDigits k).isEmpty) && (natDigits k).all Char.isDigit then
      some (Int.ofNat (digitsToNat (natDigits k))) else none) = some (Int.ofNat k)
  have h1 : (natDigits k).isEmpty = false := by
    cases hh : natDigits k with
    | nil => exact absurd hh (natDigits_ne_nil k)
    | cons c cs => rfl
  have h2 : (natDigits k).all Char.isDigit = true := List.all_eq_true.mpr (natDigits_isDigit k)
  rw [h1, h2, digitsToNat_natDigits]
  rfl

/-! ## Assembly lemmas for the sortconv theorems -/

theorem extract_iname (a : Nat) : ((ignoreadc (iname a)).getD 0).toNat = a := by
  rw [ignoreadc_iname]
  rfl

theorem extract_qname (a : Nat) : ((ignoreadc (qname a)).getD 0).toNat = a := by
  rw [ignoreadc_qname]
  rfl

theorem extract_aname (a : Nat) : ((ignorealt (aname a)).getD 0).toNat = a := by
  rw [ignorealt_aname]
  rfl

theorem exists_map_preimage {α β : Type} (g : β → α) :
    ∀ l : List α, (∀ x ∈ l, ∃ a, x = g a) → ∃ l' : List β, l = l'.map g := by
  intro l
  induction l with
  | nil => exact fun _ => ⟨[], rfl⟩
  | cons x rest ih =>
    intro h
    obtain ⟨a, rfl⟩ := h x (List.mem_cons_self x rest)
    obtain ⟨l', rfl⟩ := ih (fun y hy => h y (List.mem_cons_of_mem _ hy))
    exact ⟨a :: l', rfl⟩

theorem pyKeyed_map {filt : String → Option Int} {g : Nat → String} {key : Nat → Int}
    (hkey : ∀ a, filt (g a) = some (key a)) :
    ∀ l : List Nat, pyKeyed filt (l.map g) = some (l.map (fun a => (key a, g a))) := by
  intro l
  induction l with
  | nil => rfl
  | cons a rest ih => simp [pyKeyed, hkey a, ih]

theorem interleaveIQ_pairs (f g : Nat → String) :
    ∀ ks : List Nat, interleaveIQ false (ks.map f) (ks.map g) =
      Except.ok (ks.flatMap (fun k => [f k, g k])) := by
  intro ks
  induction ks with
  | nil => rfl
  | cons k rest ih => simp [interleaveIQ, ih, Except.map]

theorem interleaveIQ_noq : ∀ a b : List String, interleaveIQ true a b = Except.ok a := by
  intro a
  induction a with
  | nil => intro b; rfl
  | cons x rest ih => intro b; simp [interleaveIQ, ih, Except.map]

/-- C1: for every non-empty list of receive data-channel names carrying
each index of the (strictly ascending) index list ks exactly once as an
in-phase name and once as a quadrature name, sortconv with default
flags returns, for each index in ascending order, the in-phase name
followed by the quadrature name; the right-hand side depends only on
ks, so every permutation of such an input yields this same output. -/
theorem sortconv_interleaves_iq_pairs (ks : List Nat) (inp : List String)
    (hne : inp ≠ []) (hsorted : ks.Pairwise (· < ·))
    (hperm : inp.Perm (ks.map iname ++ ks.map qname)) :
    _sortconv inp = Except.ok (ks.flatMap (fun k => [iname k, qname k])) := by
  have eI : (ks.map iname ++ ks.map qname).filter (fun s => strContains s "_i") =
      ks.map iname := by
    rw [List.filter_append, List.filter_map, List.filter_map]
    have h1 : ks.filter ((fun s => strContains s "_i") ∘ iname) = ks :=
      List.filter_eq_self.mpr (fun a _ => strContains_iname_i a)
    have h2 : ks.filter ((fun s => strContains s "_i") ∘ qname) = [] :=
      List.filter_eq_nil_iff.mpr (fun a _ => by simp [Function.comp, strContains_qname_i a])
    rw [h1, h2]
    simp
  have eQ : (ks.map iname ++ ks.map qname).filter (fun s => strContains s "_q") =
      ks.map qname := by
    rw [List.filter_append, List.filter_map, List.filter_map]
    have h1 : ks.filter ((fun s => strContains s "_q") ∘ qname) = ks :=
      List.filter_eq_self.mpr (fun a _ => strContains_qname_q a)
    have h2 : ks.filter ((fun s => strContains s "_q") ∘ iname) = [] :=
      List.filter_eq_nil_iff.mpr (fun a _ => by simp [Function.comp, strContains_iname_q a])
    rw [h1, h2]
    simp
  have hfI : (inp.filter (fun s => strContains s "_i")).Perm (ks.map iname) := by
    have h := hperm.filter (fun s => strContains s "_i")
    rwa [eI] at h
  have hfQ : (inp.filter (fun s => strContains s "_q")).Perm (ks.map qname) := by
    have h := hperm.filter (fun s => strContains s "_q")
    rwa [eQ] at h
  obtain ⟨ksI, hksI⟩ := exists_map_preimage iname (inp.filter (fun s => strContains s "_i"))
    (fun x hx => by
      obtain ⟨a, -, hax⟩ := List.mem_map.mp (hfI.mem_iff.mp hx)
      exact ⟨a, hax.symm⟩)
  obtain ⟨ksQ, hksQ⟩ := exists_map_preimage qname (inp.filter (fun s => strContains s "_q"))
    (fun x hx => by
      obtain ⟨a, -, hax⟩ := List.mem_map.mp (hfQ.mem_iff.mp hx)
      exact ⟨a, hax.symm⟩)
  have hpermI : ksI.Perm ks := by
    have h1 : (ksI.map iname).Perm (ks.map iname) := by
      rw [← hksI]
      exact hfI
    have h2 := h1.map (fun s => ((ignoreadc s).getD 0).toNat)
    rw [List.map_map, List.map_map] at h2
    have e1 : List.map ((fun s => ((ignoreadc s).getD 0).toNat) ∘ iname) ksI = ksI :=
      (List.map_congr_left (fun a _ => extract_iname a)).trans (List.map_id ksI)
    have e2 : List.map ((fun s => ((ignoreadc s).getD 0).toNat) ∘ iname) ks = ks :=
      (List.map_congr_left (fun a _ => extract_iname a)).trans (List.map_id ks)
    rwa [e1, e2] at h2
  have hpermQ : ksQ.Perm ks := by
    have h1 : (ksQ.map qname).Perm (ks.map qname) := by
      rw [← hksQ]
      exact hfQ
    have h2 := h1.map (fun s => ((ignoreadc s).getD 0).toNat)
    rw [List.map_map, List.map_map] at h2
    have e1 : List.map ((fun s => ((ignoreadc s).getD 0).toNat) ∘ qname) ksQ = ksQ :=
      (List.map_congr_left (fun a _ => extract_qname a)).trans (List.map_id ksQ)
    have e2 : List.map ((fun s => ((ignoreadc s).getD 0).toNat) ∘ qname) ks = ks :=
      (List.map_congr_left (fun a _ => extract_qname a)).trans (List.map_id ks)
    rwa [e1, e2] at h2
  have hkIeq : pyKeyed ignoreadc (inp.filter (fun s => strContains s "_i")) =
      some (ksI.map (fun a => (Int.ofNat a, iname a))) := by
    rw [hksI]
    exact pyKeyed_map (fun a => ignoreadc_iname a) ksI
  have hkQeq : pyKeyed ignoreadc (inp.filter (fun s => strContains s "_q")) =
      some (ksQ.map (fun a => (Int.ofNat a, qname a))) := by
    rw [hksQ]
    exact pyKeyed_map (fun a => ignoreadc_qname a) ksQ
  have hstrict : (ks.map (fun a => ((Int.ofNat a : Int), iname a))).Pairwise
      (fun x y => x.1 < y.1) :=
    List.pairwise_map.mpr (hsorted.imp (fun h => Int.ofNat_lt.mpr h))
  have hstrictQ : (ks.map (fun a => ((Int.ofNat a : Int), qname a))).Pairwise
      (fun x y => x.1 < y.1) :=
    List.pairwise_map.mpr (hsorted.imp (fun h => Int.ofNat_lt.mpr h))
  have hsortI : sortByKey Prod.fst (ksI.map (fun a => (Int.ofNat a, iname a))) =
      ks.map (fun a => (Int.ofNat a, iname a)) :=
    sortByKey_eq_target _ (hpermI.map _) hstrict
  have hsortQ : sortByKey Prod.fst (ksQ.map (fun a => (Int.ofNat a, qname a))) =
      ks.map (fun a => (Int.ofNat a, qname a)) :=
    sortByKey_eq_target _ (hpermQ.map _) hstrictQ
  have hsndI : (ks.map (fun a => ((Int.ofNat a : Int), iname a))).map Prod.snd =
      ks.map iname := by
    rw [List.map_map]
    rfl
  have hsndQ : (ks.map (fun a => ((Int.ofNat a : Int), qname a))).map Prod.snd =
      ks.map qname := by
    rw [List.map_map]
    rfl
  show (match pyKeyed ignoreadc (inp.filter (fun s => strContains s "_i")),
      pyKeyed ignoreadc (inp.filter (fun s => strContains s "_q")) with
    | some kI, some kQ =>
        interleaveIQ false ((sortByKey Prod.fst kI).map Prod.snd)
          ((sortByKey Prod.fst kQ).map Prod.snd)
    | _, _ => Except.error "ValueError") =
    Except.ok (ks.flatMap (fun k => [iname k, qname k]))
  rw [hkIeq, hkQeq]
  show interleaveIQ false
      ((sortByKey Prod.fst (ksI.map (fun a => (Int.ofNat a, iname a)))).map Prod.snd)
      ((sortByKey Prod.fst (ksQ.map (fun a => (Int.ofNat a, qname a)))).map Prod.snd) = _
  rw [hsortI, hsortQ, hsndI, hsndQ]
  exact interleaveIQ_pairs iname qname ks

/-- C8: for every list of DDS channel names carrying each index of the
(strictly ascending) index list ks exactly once as an altvoltage name,
sortconv with dds = true returns the names sorted ascending by the
numeric suffix after the altvoltage prefix, with no pairing and no
duplication. -/
theorem sortconv_dds_sorts_by_suffix (ks : List Nat) (inp : List String)
    (hsorted : ks.Pairwise (· < ·)) (hperm : inp.Perm (ks.map aname)) :
    _sortconv inp false true = Except.ok (ks.map aname) := by
  have eQ : (ks.map aname).filter (fun s => strContains s "_q") = [] :=
    List.filter_eq_nil_iff.mpr (fun a ha => by
      obtain ⟨b, -, rfl⟩ := List.mem_map.mp ha
      simp [strContains_aname_q b])
  have hfQ : inp.filter (fun s => strContains s "_q") = [] := by
    have h := hperm.filter (fun s => strContains s "_q")
    rw [eQ] at h
    exact h.eq_nil
  obtain ⟨ksA, hksA⟩ := exists_map_preimage aname inp (fun x hx => by
    obtain ⟨a, -, hax⟩ := List.mem_map.mp (hperm.mem_iff.mp hx)
    exact ⟨a, hax.symm⟩)
  have hpermA : ksA.Perm ks := by
    have h1 : (ksA.map aname).Perm (ks.map aname) := by
      rw [← hksA]
      exact hperm
    have h2 := h1.map (fun s => ((ignorealt s).getD 0).toNat)
    rw [List.map_map, List.map_map] at h2
    have e1 : List.map ((fun s => ((ignorealt s).getD 0).toNat) ∘ aname) ksA = ksA :=
      (List.map_congr_left (fun a _ => extract_aname a)).trans (List.map_id ksA)
    have e2 : List.map ((fun s => ((ignorealt s).getD 0).toNat) ∘ aname) ks = ks :=
      (List.map_congr_left (fun a _ => extract_aname a)).trans (List.map_id ks)
    rwa [e1, e2] at h2
  have hkA : pyKeyed ignorealt inp = some (ksA.map (fun a => (Int.ofNat a, aname a))) := by
    rw [hksA]
    exact pyKeyed_map (fun a => ignorealt_aname a) ksA
  have hkQ : pyKeyed ignorealt (inp.filter (fun s => strContains s "_q")) = some [] := by
    rw [hfQ]
    rfl
  have hsortA : sortByKey Prod.fst (ksA.map (fun a => (Int.ofNat a, aname a))) =
      ks.map (fun a => (Int.ofNat a, aname a)) :=
    sortByKey_eq_target _ (hpermA.map _)
      (List.pairwise_map.mpr (hsorted.imp (fun h => Int.ofNat_lt.mpr h)))
  show (match pyKeyed ignorealt inp,
      pyKeyed ignorealt (inp.filter (fun s => strContains s "_q")) with
    | some kI, some kQ =>
        interleaveIQ true ((sortByKey Prod.fst kI).map Prod.snd)
          ((sortByKey Prod.fst kQ).map Prod.snd)
    | _, _ => Except.error "ValueError") = Except.ok (ks.map aname)
  rw [hkA, hkQ]
  show interleaveIQ true
      ((sortByKey Prod.fst (ksA.map (fun a => (Int.ofNat a, aname a)))).map Prod.snd)
      ((sortByKey Prod.fst ([] : List (Int × String))).map Prod.snd) = _
  rw [hsortA, interleaveIQ_noq]
  show Except.ok ((ks.map (fun a => ((Int.ofNat a : Int), aname a))).map Prod.snd) = _
  rw [List.map_map]
  rfl

theorem interleaveIQ_short : ∀ a b : List String, b.length < a.length →
    interleaveIQ false a b = Except.error "IndexError" := by
  intro a
  induction a with
  | nil => intro b h; simp at h
  | cons x rest ih =>
    intro b h
    cases b with
    | nil => rfl
    | cons y bs =>
      have h2 := ih bs (by simp at h; omega)
      simp [interleaveIQ, h2, Except.map]

theorem interleaveIQ_zip : ∀ a b : List String, a.length ≤ b.length →
    interleaveIQ false a b = Except.ok ((a.zip b).flatMap (fun p => [p.1, p.2])) := by
  intro a
  induction a with
  | nil => intro b h; rfl
  | cons x rest ih =>
    intro b h
    cases b with
    | nil => simp at h
    | cons y bs =>
      have h2 := ih bs (by simp at h; omega)
      simp [interleaveIQ, h2, Except.map]

/-- C10: in the data-channel sort, pairing of the sorted in-phase and
quadrature partitions is positional: when keys extract on both
partitions, a longer in-phase partition makes sortconv fail with
IndexError, and otherwise the output zips the two sorted partitions
positionally, silently dropping any excess quadrature names. -/
theorem sortconv_positional_pairing (inp : List String) (kI kQ : List (Int × String))
    (hI : pyKeyed ignoreadc (inp.filter (fun s => strContains s "_i")) = some kI)
    (hQ : pyKeyed ignoreadc (inp.filter (fun s => strContains s "_q")) = some kQ) :
    (kQ.length < kI.length → _sortconv inp = Except.error "IndexError") ∧
    (kI.length ≤ kQ.length → _sortconv inp = Except.ok
      ((((sortByKey Prod.fst kI).map Prod.snd).zip
        ((sortByKey Prod.fst kQ).map Prod.snd)).flatMap (fun p => [p.1, p.2]))) := by
  have hmain : _sortconv inp = interleaveIQ false ((sortByKey Prod.fst kI).map Prod.snd)
      ((sortByKey Prod.fst kQ).map Prod.snd) := by
    show (match pyKeyed ignoreadc (inp.filter (fun s => strContains s "_i")),
        pyKeyed ignoreadc (inp.filter (fun s => strContains s "_q")) with
      | some a, some b =>
          interleaveIQ false ((sortByKey Prod.fst a).map Prod.snd)
            ((sortByKey Prod.fst b).map Prod.snd)
      | _, _ => Except.error "ValueError") = _
    rw [hI, hQ]
  have hlenI : ((sortByKey Prod.fst kI).map Prod.snd).length = kI.length := by
    rw [List.length_map]
    exact (sortByKey_perm Prod.fst kI).length_eq
  have hlenQ : ((sortByKey Prod.fst kQ).map Prod.snd).length = kQ.length := by
    rw [List.length_map]
    exact (sortByKey_perm Prod.fst kQ).length_eq
  constructor
  · intro hlt
    rw [hmain]
    exact interleaveIQ_short _ _ (by omega)
  · intro hle
    rw [hmain]
    exact interleaveIQ_zip _ _ (by omega)

theorem sortconv_interleaves_iq_pairs_witness :
    ["voltage1_q", "voltage0_i", "voltage1_i", "voltage0_q"] ≠ ([] : List String) ∧
    _sortconv ["voltage1_q", "voltage0_i", "voltage1_i", "voltage0_q"] =
      Except.ok ["voltage0_i", "voltage0_q", "voltage1_i", "voltage1_q"] := by
  refine ⟨by decide, ?_⟩
  have h := sortconv_interleaves_iq_pairs [0, 1]
    ["voltage1_q", "voltage0_i", "voltage1_i", "voltage0_q"]
    (by decide) (by decide) (by decide)
  rw [h]
  rfl

theorem sortconv_dds_sorts_by_suffix_witness :
    _sortconv ["altvoltage3", "altvoltage0", "altvoltage1"] false true =
      Except.ok ["altvoltage0", "altvoltage1", "altvoltage3"] := by
  have h := sortconv_dds_sorts_by_suffix [0, 1, 3]
    ["altvoltage3", "altvoltage0", "altvoltage1"] (by decide) (by decide)
  rw [h]
  rfl

theorem sortconv_positional_pairing_witness :
    _sortconv ["voltage0_i", "voltage1_i", "voltage0_q"] = Except.error "IndexError" :=
  (sortconv_positional_pairing ["voltage0_i", "voltage1_i", "voltage0_q"]
    [(0, "voltage0_i"), (1, "voltage1_i")] [(0, "voltage0_q")] rfl rfl).1 (by decide)

/-! ## Ordered-dict lemmas and the path-map insertion -/

theorem alistGet_updAt_self {α : Type} (k : String) (init : α) (f : α → α) :
    ∀ m : List (String × α),
      alistGet k (updAt k init f m) = some (f ((alistGet k m).getD init)) := by
  intro m
  induction m with
  | nil => simp [updAt, alistGet]
  | cons p rest ih =>
    obtain ⟨k', v⟩ := p
    by_cases h : k' = k
    · simp [updAt, alistGet, if_pos h]
    · simp [updAt, alistGet, if_neg h, ih]

theorem alistGet_updAt_ne {α : Type} {k1 k : String} (hne : k1 ≠ k) (init : α) (f : α → α) :
    ∀ m : List (String × α), alistGet k1 (updAt k init f m) = alistGet k1 m := by
  intro m
  induction m with
  | nil => simp [updAt, alistGet, if_neg (Ne.symm hne)]
  | cons p rest ih =>
    obtain ⟨k', v⟩ := p
    by_cases h : k' = k
    · subst h
      simp [updAt, alistGet, if_neg (Ne.symm hne)]
    · simp [updAt, alistGet, if_neg h, ih]

theorem pmGet_as_chain (paths : PathMap) (a c f : String) :
    (pmGet paths a c f).getD [] =
      (alistGet f ((alistGet c ((alistGet a paths).getD [])).getD [])).getD [] := by
  unfold pmGet
  cases h1 : alistGet a paths with
  | none => simp [alistGet]
  | some cm =>
    cases h2 : alistGet c cm with
    | none => simp [h2, alistGet]
    | some fm => simp [h2]

theorem pmGet_insertPath_self (paths : PathMap) (adc cddc fddc cid : String) :
    pmGet (insertPath paths adc cddc fddc cid) adc cddc fddc =
      some (((pmGet paths adc cddc fddc).getD []) ++ [cid]) := by
  rw [pmGet_as_chain]
  simp only [insertPath, pmGet, alistGet_updAt_self]

theorem pmGet_insertPath_other (paths : PathMap) (adc cddc fddc cid a c f : String)
    (h : a ≠ adc ∨ c ≠ cddc ∨ f ≠ fddc) :
    pmGet (insertPath paths adc cddc fddc cid) a c f = pmGet paths a c f := by
  by_cases ha : a = adc
  · subst ha
    by_cases hc : c = cddc
    · subst hc
      have hf : f ≠ fddc := by tauto
      unfold pmGet insertPath
      rw [alistGet_updAt_self]
      cases h1 : alistGet a paths with
      | none =>
        simp only [Option.getD_none, Option.getD_some]
        rw [alistGet_updAt_self]
        simp [alistGet, Ne.symm hf]
      | some cm =>
        simp only [Option.getD_some]
        rw [alistGet_updAt_self]
        cases h2 : alistGet c cm with
        | none =>
          simp only [h2, Option.getD_none]
          rw [alistGet_updAt_ne hf]
          simp [alistGet]
        | some fm =>
          simp only [h2, Option.getD_some]
          exact alistGet_updAt_ne hf _ _ fm
    · unfold pmGet insertPath
      rw [alistGet_updAt_self]
      cases h1 : alistGet a paths with
      | none =>
        simp only [Option.getD_none]
        rw [alistGet_updAt_ne hc]
        simp [alistGet]
      | some cm =>
        simp only [Option.getD_some]
        rw [alistGet_updAt_ne hc]
  · unfold pmGet insertPath
    rw [alistGet_updAt_ne ha]

/-- C2: map_to_dict inserts the channel identifier at
map[converter][coarse][fine], where the label splits on the arrow
separator into (fine, coarse, converter) in that order: the operation
succeeds, the addressed leaf gains the identifier at its end (a fresh
singleton leaf and intermediate dicts are created on first encounter),
and every other (converter, coarse, fine) triple is untouched, so two
channels with one same label accumulate both identifiers in insertion
order at the one leaf. -/
theorem map_to_dict_inserts (paths : PathMap) (ch : Chan) (lab fddc cddc adc : String)
    (hlab : ch.label = some lab) (hsplit : pySplitArrow lab = [fddc, cddc, adc]) :
    _map_to_dict paths ch = Except.ok (insertPath paths adc cddc fddc ch.id) ∧
    pmGet (insertPath paths adc cddc fddc ch.id) adc cddc fddc =
      some (((pmGet paths adc cddc fddc).getD []) ++ [ch.id]) ∧
    (∀ a c f, a ≠ adc ∨ c ≠ cddc ∨ f ≠ fddc →
      pmGet (insertPath paths adc cddc fddc ch.id) a c f = pmGet paths a c f) := by
  refine ⟨?_, pmGet_insertPath_self paths adc cddc fddc ch.id,
    fun a c f h => pmGet_insertPath_other paths adc cddc fddc ch.id a c f h⟩
  simp only [_map_to_dict, hlab, hsplit]

theorem map_to_dict_inserts_witness :
    pmGet (insertPath [("A1", [("C1", [("F1", ["voltage0_i"])])])] "A1" "C1" "F1"
      "voltage0_q") "A1" "C1" "F1" = some ["voltage0_i", "voltage0_q"] :=
  ((map_to_dict_inserts [("A1", [("C1", [("F1", ["voltage0_i"])])])]
      ⟨"voltage0_q", some "F1->C1->A1", true, false⟩ "F1->C1->A1" "F1" "C1" "A1"
      rfl rfl).2.1).trans (by rfl)

/-! ## Identifier provenance in the path map -/

theorem mem_flat_of_get {α β : Type} (g : α → List β) (k : String) :
    ∀ (m : List (String × α)) (v : α), alistGet k m = some v →
      ∀ y ∈ g v, y ∈ m.flatMap (fun p => g p.2) := by
  intro m
  induction m with
  | nil => intro v hv; simp [alistGet] at hv
  | cons p rest ih =>
    obtain ⟨k', v'⟩ := p
    intro v hv y hy
    by_cases h : k' = k
    · simp only [alistGet, if_pos h] at hv
      cases hv
      simp only [List.flatMap_cons]
      exact List.mem_append.mpr (Or.inl hy)
    · simp only [alistGet, if_neg h] at hv
      simp only [List.flatMap_cons]
      exact List.mem_append.mpr (Or.inr (ih v hv y hy))

theorem mem_flat_getD {α β : Type} (gD : α → List β) (k : String) (dflt : α)
    (hd : gD dflt = []) (m : List (String × α)) (x : β)
    (hx : x ∈ gD ((alistGet k m).getD dflt)) : x ∈ m.flatMap (fun p => gD p.2) := by
  cases h : alistGet k m with
  | none =>
    rw [h] at hx
    simp [hd] at hx
  | some v =>
    rw [h] at hx
    exact mem_flat_of_get gD k m v h x hx

theorem mem_flat_updAt {α β : Type} (g : α → List β) (k : String) (init : α) (f : α → α) :
    ∀ (m : List (String × α)) (x : β),
      x ∈ (updAt k init f m).flatMap (fun p => g p.2) →
      x ∈ m.flatMap (fun p => g p.2) ∨ x ∈ g (f ((alistGet k m).getD init)) := by
  intro m
  induction m with
  | nil =>
    intro x hx
    simp only [updAt, List.flatMap_cons, List.flatMap_nil, List.append_nil] at hx
    right
    simpa [alistGet] using hx
  | cons p rest ih =>
    obtain ⟨k', v⟩ := p
    intro x hx
    by_cases h : k' = k
    · subst h
      simp only [updAt, if_pos rfl, List.flatMap_cons] at hx
      rcases List.mem_append.mp hx with h1 | h2
      · right
        simpa [alistGet] using h1
      · left
        simp only [List.flatMap_cons]
        exact List.mem_append.mpr (Or.inr h2)
    · simp only [updAt, if_neg h, List.flatMap_cons] at hx
      rcases List.mem_append.mp hx with h1 | h2
      · left
        simp only [List.flatMap_cons]
        exact List.mem_append.mpr (Or.inl h1)
      · rcases ih x h2 with h3 | h4
        · left
          simp only [List.flatMap_cons]
          exact List.mem_append.mpr (Or.inr h3)
        · right
          simpa [alistGet, if_neg h] using h4

theorem mem_pmIds_insertPath (paths : PathMap) (adc cddc fddc cid : String) :
    ∀ x ∈ pmIds (insertPath paths adc cddc fddc cid), x ∈ pmIds paths ∨ x = cid := by
  intro x hx
  have h1 := mem_flat_updAt
    (fun cm : CoarseMap => cm.flatMap (fun c => c.2.flatMap (fun fb => fb.2)))
    adc ([] : CoarseMap)
    (updAt cddc [] (updAt fddc [] (fun chans => chans ++ [cid]))) paths x hx
  rcases h1 with h1 | h1
  · exact Or.inl h1
  · have h2 := mem_flat_updAt (fun fm : FineMap => fm.flatMap (fun fb => fb.2))
      cddc ([] : FineMap) (updAt fddc [] (fun chans => chans ++ [cid]))
      ((alistGet adc paths).getD []) x h1
    rcases h2 with h2 | h2
    · exact Or.inl (mem_flat_getD
        (fun cm : CoarseMap => cm.flatMap (fun c => c.2.flatMap (fun fb => fb.2)))
        adc ([] : CoarseMap) rfl paths x h2)
    · have h3 := mem_flat_updAt (fun leaf : List String => leaf)
        fddc ([] : List String) (fun chans => chans ++ [cid])
        ((alistGet cddc ((alistGet adc paths).getD [])).getD []) x h2
      rcases h3 with h3 | h3
      · have h4 : x ∈ ((alistGet adc paths).getD [] : CoarseMap).flatMap
            (fun c => c.2.flatMap (fun fb => fb.2)) :=
          mem_flat_getD (fun fm : FineMap => fm.flatMap (fun fb => fb.2))
            cddc ([] : FineMap) rfl ((alistGet adc paths).getD []) x h3
        exact Or.inl (mem_flat_getD
          (fun cm : CoarseMap => cm.flatMap (fun c => c.2.flatMap (fun fb => fb.2)))
          adc ([] : CoarseMap) rfl paths x h4)
      · rcases List.mem_append.mp h3 with h5 | h5
        · have h6 : x ∈ (((alistGet cddc ((alistGet adc paths).getD [])).getD [] :
              FineMap).flatMap (fun fb => fb.2)) :=
            mem_flat_getD (fun leaf : List String => leaf)
              fddc ([] : List String) rfl _ x h5
          have h7 : x ∈ ((alistGet adc paths).getD [] : CoarseMap).flatMap
              (fun c => c.2.flatMap (fun fb => fb.2)) :=
            mem_flat_getD (fun fm : FineMap => fm.flatMap (fun fb => fb.2))
              cddc ([] : FineMap) rfl ((alistGet adc paths).getD []) x h6
          exact Or.inl (mem_flat_getD
            (fun cm : CoarseMap => cm.flatMap (fun c => c.2.flatMap (fun fb => fb.2)))
            adc ([] : CoarseMap) rfl paths x h7)
        · exact Or.inr (List.mem_singleton.mp h5)

/-! ## The construction loop over labelled channels -/

theorem buildPathMap_from_ok :
    ∀ (chans : List Chan) (paths : PathMap),
      (∀ ch ∈ chans, ∀ lab, ch.label = some lab → (pySplitArrow lab).length = 3) →
      ∃ m, chans.foldlM (fun paths ch =>
          if ch.label.isSome then _map_to_dict paths ch else pure paths) paths =
        Except.ok m ∧
        ∀ x ∈ pmIds m, x ∈ pmIds paths ∨ ∃ ch ∈ chans, ch.label.isSome ∧ ch.id = x := by
  intro chans
  induction chans with
  | nil =>
    intro paths _
    exact ⟨paths, rfl, fun x hx => Or.inl hx⟩
  | cons ch rest ih =>
    intro paths h
    cases hlab : ch.label with
    | none =>
      obtain ⟨m, hm, hmem⟩ := ih paths
        (fun c hc lab hl => h c (List.mem_cons_of_mem _ hc) lab hl)
      refine ⟨m, ?_, ?_⟩
      · rw [List.foldlM_cons]
        show (if ch.label.isSome then _map_to_dict paths ch else pure paths) >>=
          (fun b => rest.foldlM _ b) = _
        rw [hlab]
        show (pure paths : Except String PathMap) >>= _ = _
        rw [pure_bind]
        exact hm
      · intro x hx
        rcases hmem x hx with h1 | ⟨c, hc, hcl⟩
        · exact Or.inl h1
        · exact Or.inr ⟨c, List.mem_cons_of_mem _ hc, hcl⟩
    | some lab =>
      have hl3 := h ch (List.mem_cons_self ch rest) lab hlab
      obtain ⟨fddc, cddc, adc, hsplit⟩ : ∃ fd cd ad, pySplitArrow lab = [fd, cd, ad] := by
        rcases hsp : pySplitArrow lab with _ | ⟨x, _ | ⟨y, _ | ⟨z, _ | ⟨w, ws⟩⟩⟩⟩
        · rw [hsp] at hl3
          simp at hl3
        · rw [hsp] at hl3
          simp at hl3
        · rw [hsp] at hl3
          simp at hl3
        · exact ⟨x, y, z, rfl⟩
        · rw [hsp] at hl3
          simp at hl3
      have hstep : _map_to_dict paths ch = Except.ok (insertPath paths adc cddc fddc ch.id) := by
        simp only [_map_to_dict, hlab, hsplit]
      obtain ⟨m, hm, hmem⟩ := ih (insertPath paths adc cddc fddc ch.id)
        (fun c hc lab2 hl => h c (List.mem_cons_of_mem _ hc) lab2 hl)
      refine ⟨m, ?_, ?_⟩
      · rw [List.foldlM_cons]
        show (if ch.label.isSome then _map_to_dict paths ch else pure paths) >>=
          (fun b => rest.foldlM _ b) = _
        rw [hlab]
        show _map_to_dict paths ch >>= _ = _
        rw [hstep]
        show rest.foldlM _ (insertPath paths adc cddc fddc ch.id) = Except.ok m
        exact hm
      · intro x hx
        rcases hmem x hx with h1 | ⟨c, hc, hcl⟩
        · rcases mem_pmIds_insertPath paths adc cddc fddc ch.id x h1 with h2 | h2
          · exact Or.inl h2
          · exact Or.inr ⟨ch, List.mem_cons_self ch rest, by rw [hlab]; exact ⟨rfl, h2.symm⟩⟩
        · exact Or.inr ⟨c, List.mem_cons_of_mem _ hc, hcl⟩

theorem buildPathMap_from_err :
    ∀ (chans : List Chan) (paths : PathMap),
      (∃ ch ∈ chans, ∃ lab, ch.label = some lab ∧ (pySplitArrow lab).length ≠ 3) →
      chans.foldlM (fun paths ch =>
        if ch.label.isSome then _map_to_dict paths ch else pure paths) paths =
        Except.error "ValueError" := by
  intro chans
  induction chans with
  | nil =>
    intro paths h
    obtain ⟨ch, hch, -⟩ := h
    simp at hch
  | cons ch rest ih =>
    intro paths h
    cases hlab : ch.label with
    | none =>
      have h2 : ∃ c ∈ rest, ∃ lab, c.label = some lab ∧ (pySplitArrow lab).length ≠ 3 := by
        obtain ⟨c, hc, lab, hcl, hbad⟩ := h
        rcases List.mem_cons.mp hc with rfl | hcr
        · rw [hlab] at hcl
          cases hcl
        · exact ⟨c, hcr, lab, hcl, hbad⟩
      rw [List.foldlM_cons]
      show (if ch.label.isSome then _map_to_dict paths ch else pure paths) >>=
        (fun b => rest.foldlM _ b) = _
      rw [hlab]
      show (pure paths : Except String PathMap) >>= _ = _
      rw [pure_bind]
      exact ih paths h2
    | some lab =>
      by_cases h3 : (pySplitArrow lab).length = 3
      · obtain ⟨fddc, cddc, adc, hsplit⟩ : ∃ fd cd ad, pySplitArrow lab = [fd, cd, ad] := by
          rcases hsp : pySplitArrow lab with _ | ⟨x, _ | ⟨y, _ | ⟨z, _ | ⟨w, ws⟩⟩⟩⟩
          · rw [hsp] at h3
            simp at h3
          · rw [hsp] at h3
            simp at h3
          · rw [hsp] at h3
            simp at h3
          · exact ⟨x, y, z, rfl⟩
          · rw [hsp] at h3
            simp at h3
        have hstep : _map_to_dict paths ch =
            Except.ok (insertPath paths adc cddc fddc ch.id) := by
          simp only [_map_to_dict, hlab, hsplit]
        have h2 : ∃ c ∈ rest, ∃ lab2, c.label = some lab2 ∧
            (pySplitArrow lab2).length ≠ 3 := by
          obtain ⟨c, hc, lab2, hcl, hbad⟩ := h
          rcases List.mem_cons.mp hc with rfl | hcr
          · rw [hlab] at hcl
            cases hcl
            exact absurd h3 hbad
          · exact ⟨c, hcr, lab2, hcl, hbad⟩
        rw [List.foldlM_cons]
        show (if ch.label.isSome then _map_to_dict paths ch else pure paths) >>=
          (fun b => rest.foldlM _ b) = _
        rw [hlab]
        show _map_to_dict paths ch >>= _ = _
        rw [hstep]
        show rest.foldlM _ (insertPath paths adc cddc fddc ch.id) = _
        exact ih _ h2
      · have hstep : _map_to_dict paths ch = Except.error "ValueError" := by
          rcases hsp : pySplitArrow lab with _ | ⟨x, _ | ⟨y, _ | ⟨z, _ | ⟨w, ws⟩⟩⟩⟩
          · simp [_map_to_dict, hlab, hsp]
          · simp [_map_to_dict, hlab, hsp]
          · simp [_map_to_dict, hlab, hsp]
          · rw [hsp] at h3
            simp at h3
          · simp [_map_to_dict, hlab, hsp]
        rw [List.foldlM_cons]
        show (if ch.label.isSome then _map_to_dict paths ch else pure paths) >>=
          (fun b => rest.foldlM _ b) = _
        rw [hlab]
        show _map_to_dict paths ch >>= _ = _
        rw [hstep]
        rfl

/-- C5 counterexample: a channel carrying the malformed label "A->B"
(two tokens instead of three) makes path-map construction fail with a
ValueError rather than being silently excluded, refuting the claim
that construction completes without error for malformed labels. -/
theorem buildPathMap_malformed_counterexample :
    buildPathMap [⟨"voltage0_i", some "A->B", true, false⟩] =
      Except.error "ValueError" := rfl

/-- C5 (amended): channels whose label is absent are silently excluded
from the path map - when every present label splits into exactly three
tokens, construction completes without error and every identifier in
the resulting map stems from a labelled channel - but a channel whose
label is malformed (token count differing from three) instead makes
construction fail with a ValueError. -/
theorem buildPathMap_label_handling (chans : List Chan) :
    ((∀ ch ∈ chans, ∀ lab, ch.label = some lab → (pySplitArrow lab).length = 3) →
      ∃ m, buildPathMap chans = Except.ok m ∧
        ∀ x ∈ pmIds m, ∃ ch ∈ chans, ch.label.isSome ∧ ch.id = x) ∧
    ((∃ ch ∈ chans, ∃ lab, ch.label = some lab ∧ (pySplitArrow lab).length ≠ 3) →
      buildPathMap chans = Except.error "ValueError") := by
  constructor
  · intro h
    obtain ⟨m, hm, hmem⟩ := buildPathMap_from_ok chans [] h
    refine ⟨m, hm, fun x hx => (hmem x hx).resolve_left ?_⟩
    simp [pmIds]
  · intro h
    exact buildPathMap_from_err chans [] h

theorem buildPathMap_label_handling_witness :
    ∃ m, buildPathMap [⟨"voltage0_i", some "F1->C1->A1", true, false⟩,
        ⟨"attrchan", none, false, false⟩] = Except.ok m ∧
      ∀ x ∈ pmIds m, ∃ ch ∈ [(⟨"voltage0_i", some "F1->C1->A1", true, false⟩ : Chan),
        ⟨"attrchan", none, false, false⟩], ch.label.isSome ∧ ch.id = x :=
  (buildPathMap_label_handling _).1 (by decide)

/-! ## Characterisation of the representative derivation loop -/

/-- The coarse representatives of one converter: the head of each
coarse group in insertion order. -/
def headsOf (cm : CoarseMap) : List String :=
  cm.map (fun cdc => (groupFiltered cdc.2).headD "")

/-- The fine members of one converter: all filtered identifiers of its
coarse groups in insertion order. -/
def finesOf (cm : CoarseMap) : List String :=
  cm.flatMap (fun cdc => groupFiltered cdc.2)

/-- Coarse representatives contributed by a list of converters. -/
def coarseOf (paths : PathMap) : List String :=
  paths.flatMap (fun conv => headsOf conv.2)

/-- Fine members contributed by a list of converters. -/
def fineOf (paths : PathMap) : List String :=
  paths.flatMap (fun conv => finesOf conv.2)

theorem foldlM_deriveStep (conv : String) :
    ∀ (cm : CoarseMap) (acc : Derived),
      (∀ cdc ∈ cm, groupFiltered cdc.2 ≠ []) →
      cm.foldlM (fun a cdc => deriveStep conv a cdc.2) acc =
        Except.ok (if strContains conv "ADC" then
          ⟨acc.rx_coarse ++ headsOf cm, acc.rx_fine ++ finesOf cm,
           acc.tx_coarse, acc.tx_fine⟩
        else
          ⟨acc.rx_coarse, acc.rx_fine,
           acc.tx_coarse ++ headsOf cm, acc.tx_fine ++ finesOf cm⟩) := by
  intro cm
  induction cm with
  | nil =>
    intro acc _
    obtain ⟨a1, a2, a3, a4⟩ := acc
    show Except.ok (⟨a1, a2, a3, a4⟩ : Derived) = _
    by_cases hA : strContains conv "ADC" = true <;> simp [headsOf, finesOf, hA]
  | cons cdc cmrest ih =>
    intro acc hall
    obtain ⟨cname, fm⟩ := cdc
    have hne := hall (cname, fm) (List.mem_cons_self _ _)
    rcases hgf : groupFiltered fm with _ | ⟨c0, grest⟩
    · exact absurd hgf hne
    · have hstep : deriveStep conv acc fm =
          Except.ok (if strContains conv "ADC" then
            ⟨acc.rx_coarse ++ [c0], acc.rx_fine ++ (c0 :: grest),
             acc.tx_coarse, acc.tx_fine⟩
          else
            ⟨acc.rx_coarse, acc.rx_fine,
             acc.tx_coarse ++ [c0], acc.tx_fine ++ (c0 :: grest)⟩) := by
        by_cases hA : strContains conv "ADC" = true <;>
          simp [deriveStep, hgf, hA]
      rw [List.foldlM_cons]
      show deriveStep conv acc fm >>= (fun a => cmrest.foldlM _ a) = _
      rw [hstep]
      by_cases hA : strContains conv "ADC" = true
      · rw [if_pos hA]
        show cmrest.foldlM _
          (⟨acc.rx_coarse ++ [c0], acc.rx_fine ++ (c0 :: grest),
            acc.tx_coarse, acc.tx_fine⟩ : Derived) = _
        rw [ih _ (fun c hc => hall c (List.mem_cons_of_mem _ hc))]
        rw [if_pos hA, if_pos hA]
        simp [headsOf, finesOf, hgf, List.append_assoc]
      · rw [if_neg hA]
        show cmrest.foldlM _
          (⟨acc.rx_coarse, acc.rx_fine,
            acc.tx_coarse ++ [c0], acc.tx_fine ++ (c0 :: grest)⟩ : Derived) = _
        rw [ih _ (fun c hc => hall c (List.mem_cons_of_mem _ hc))]
        rw [if_neg hA, if_neg hA]
        simp [headsOf, finesOf, hgf, List.append_assoc]

theorem deriveLists_char :
    ∀ (paths : PathMap) (init : Derived),
      (∀ conv ∈ paths, ∀ cdc ∈ conv.2, groupFiltered cdc.2 ≠ []) →
      deriveLists paths init = Except.ok
        ⟨init.rx_coarse ++ coarseOf (paths.filter (fun conv => strContains conv.1 "ADC")),
         init.rx_fine ++ fineOf (paths.filter (fun conv => strContains conv.1 "ADC")),
         init.tx_coarse ++ coarseOf (paths.filter (fun conv => !strContains conv.1 "ADC")),
         init.tx_fine ++ fineOf (paths.filter (fun conv => !strContains conv.1 "ADC"))⟩ := by
  intro paths
  induction paths with
  | nil =>
    intro init _
    obtain ⟨a1, a2, a3, a4⟩ := init
    show Except.ok (⟨a1, a2, a3, a4⟩ : Derived) = _
    simp [coarseOf, fineOf]
  | cons conv rest ih =>
    intro init hall
    obtain ⟨cname, cm⟩ := conv
    show (((cname, cm) :: rest).foldlM
      (fun acc conv => conv.2.foldlM (fun a cdc => deriveStep conv.1 a cdc.2) acc) init) = _
    rw [List.foldlM_cons]
    show (cm.foldlM (fun a cdc => deriveStep cname a cdc.2) init) >>=
      (fun a => rest.foldlM _ a) = _
    rw [foldlM_deriveStep cname cm init
      (fun cdc hc => hall (cname, cm) (List.mem_cons_self _ _) cdc hc)]
    by_cases hA : strContains cname "ADC" = true
    · rw [if_pos hA]
      show deriveLists rest
        (⟨init.rx_coarse ++ headsOf cm, init.rx_fine ++ finesOf cm,
          init.tx_coarse, init.tx_fine⟩ : Derived) = _
      rw [ih _ (fun c hc => hall c (List.mem_cons_of_mem _ hc))]
      simp [coarseOf, fineOf, List.filter_cons, hA, List.append_assoc]
    · rw [if_neg hA]
      show deriveLists rest
        (⟨init.rx_coarse, init.rx_fine,
          init.tx_coarse ++ headsOf cm, init.tx_fine ++ finesOf cm⟩ : Derived) = _
      rw [ih _ (fun c hc => hall c (List.mem_cons_of_mem _ hc))]
      simp [coarseOf, fineOf, List.filter_cons, hA, List.append_assoc]

/-- C3: for every path map whose (converter, coarse) groups each have a
nonempty filtered channel set, the derivation collects the channel
identifiers of all fine buckets of each group in insertion order,
filters them to those containing the in-phase marker, appends the first
filtered identifier as the coarse representative and all filtered
identifiers to the fine list (shown here for the receive side, over the
converters containing "ADC"). -/
theorem derive_representatives (paths : PathMap)
    (h : ∀ conv ∈ paths, ∀ cdc ∈ conv.2, groupFiltered cdc.2 ≠ []) :
    ∃ d, deriveLists paths ⟨[], [], [], []⟩ = Except.ok d ∧
      d.rx_coarse = (paths.filter (fun conv => strContains conv.1 "ADC")).flatMap
        (fun conv => conv.2.map (fun cdc => (groupFiltered cdc.2).headD "")) ∧
      d.rx_fine = (paths.filter (fun conv => strContains conv.1 "ADC")).flatMap
        (fun conv => conv.2.flatMap (fun cdc => groupFiltered cdc.2)) := by
  refine ⟨_, deriveLists_char paths ⟨[], [], [], []⟩ h, ?_, ?_⟩ <;>
    simp [coarseOf, fineOf, headsOf, finesOf]

theorem derive_representatives_witness :
    ∃ d, deriveLists [("ADC0", [("C0", [("A", ["voltage0_i"]), ("B", ["voltage1_i"])])])]
        ⟨[], [], [], []⟩ = Except.ok d ∧
      d.rx_coarse = ["voltage0_i"] ∧ d.rx_fine = ["voltage0_i", "voltage1_i"] := by
  obtain ⟨d, hd, h1, h2⟩ := derive_representatives
    [("ADC0", [("C0", [("A", ["voltage0_i"]), ("B", ["voltage1_i"])])])] (by decide)
  exact ⟨d, hd, h1.trans (by rfl), h2.trans (by rfl)⟩

/-- C7: the derivation routes each converter key's coarse and fine
contributions to the receive-side lists exactly when the key contains
the substring "ADC" and to the transmit-side lists otherwise: the
receive lists are the contributions of the "ADC" converters and the
transmit lists those of the remaining converters, so no converter key
contributes to both sides. -/
theorem derive_routing (paths : PathMap)
    (h : ∀ conv ∈ paths, ∀ cdc ∈ conv.2, groupFiltered cdc.2 ≠ []) :
    ∃ d, deriveLists paths ⟨[], [], [], []⟩ = Except.ok d ∧
      d.rx_coarse = coarseOf (paths.filter (fun conv => strContains conv.1 "ADC")) ∧
      d.rx_fine = fineOf (paths.filter (fun conv => strContains conv.1 "ADC")) ∧
      d.tx_coarse = coarseOf (paths.filter (fun conv => !strContains conv.1 "ADC")) ∧
      d.tx_fine = fineOf (paths.filter (fun conv => !strContains conv.1 "ADC")) :=
  ⟨_, deriveLists_char paths ⟨[], [], [], []⟩ h, by simp, by simp, by simp, by simp⟩

theorem derive_routing_witness :
    ∃ d, deriveLists [("ADC0", [("C0", [("A", ["voltage0_i"])])]),
        ("DAC0", [("D0", [("E", ["voltage1_i"])])])] ⟨[], [], [], []⟩ = Except.ok d ∧
      d.rx_coarse = ["voltage0_i"] ∧ d.rx_fine = ["voltage0_i"] ∧
      d.tx_coarse = ["voltage1_i"] ∧ d.tx_fine = ["voltage1_i"] := by
  obtain ⟨d, hd, h1, h2, h3, h4⟩ := derive_routing
    [("ADC0", [("C0", [("A", ["voltage0_i"])])]),
     ("DAC0", [("D0", [("E", ["voltage1_i"])])])] (by decide)
  exact ⟨d, hd, h1.trans (by rfl), h2.trans (by rfl), h3.trans (by rfl), h4.trans (by rfl)⟩

theorem foldlM_deriveStep_err (conv : String) :
    ∀ (cm : CoarseMap) (acc : Derived),
      (∃ cdc ∈ cm, groupFiltered cdc.2 = []) →
      cm.foldlM (fun a cdc => deriveStep conv a cdc.2) acc =
        Except.error "IndexError" := by
  intro cm
  induction cm with
  | nil =>
    intro acc h
    obtain ⟨cdc, hc, -⟩ := h
    simp at hc
  | cons cdc cmrest ih =>
    intro acc h
    rcases hgf : groupFiltered cdc.2 with _ | ⟨c0, grest⟩
    · rw [List.foldlM_cons]
      show deriveStep conv acc cdc.2 >>= (fun a => cmrest.foldlM _ a) = _
      have hstep : deriveStep conv acc cdc.2 = Except.error "IndexError" := by
        simp only [deriveStep, hgf]
      rw [hstep]
      rfl
    · have h2 : ∃ c ∈ cmrest, groupFiltered c.2 = [] := by
        obtain ⟨c, hc, hbad⟩ := h
        rcases List.mem_cons.mp hc with rfl | hcr
        · rw [hgf] at hbad
          cases hbad
        · exact ⟨c, hcr, hbad⟩
      have hstep : ∃ acc2, deriveStep conv acc cdc.2 = Except.ok acc2 := by
        by_cases hA : strContains conv "ADC" = true <;>
          simp [deriveStep, hgf, hA]
      obtain ⟨acc2, hacc2⟩ := hstep
      rw [List.foldlM_cons]
      show deriveStep conv acc cdc.2 >>= (fun a => cmrest.foldlM _ a) = _
      rw [hacc2]
      show cmrest.foldlM _ acc2 = _
      exact ih acc2 h2

/-- C6: for every path map containing a (converter, coarse) group whose
collected channel identifiers include no in-phase name, the
representative derivation fails with the IndexError of channels[0] on
an empty list, producing no partial result lists for the group. -/
theorem derive_empty_group_fails :
    ∀ (paths : PathMap) (init : Derived),
      (∃ conv ∈ paths, ∃ cdc ∈ conv.2, groupFiltered cdc.2 = []) →
      deriveLists paths init = Except.error "IndexError" := by
  intro paths
  induction paths with
  | nil =>
    intro init h
    obtain ⟨conv, hc, -⟩ := h
    simp at hc
  | cons conv rest ih =>
    intro init h
    by_cases hbad : ∃ cdc ∈ conv.2, groupFiltered cdc.2 = []
    · show ((conv :: rest).foldlM
        (fun acc conv => conv.2.foldlM (fun a cdc => deriveStep conv.1 a cdc.2) acc)
          init) = _
      rw [List.foldlM_cons]
      show (conv.2.foldlM (fun a cdc => deriveStep conv.1 a cdc.2) init) >>=
        (fun a => rest.foldlM _ a) = _
      rw [foldlM_deriveStep_err conv.1 conv.2 init hbad]
      rfl
    · have hall : ∀ cdc ∈ conv.2, groupFiltered cdc.2 ≠ [] :=
        fun cdc hc hbad2 => hbad ⟨cdc, hc, hbad2⟩
      have h2 : ∃ c ∈ rest, ∃ cdc ∈ c.2, groupFiltered cdc.2 = [] := by
        obtain ⟨c, hc, w⟩ := h
        rcases List.mem_cons.mp hc with rfl | hcr
        · exact absurd w hbad
        · exact ⟨c, hcr, w⟩
      show ((conv :: rest).foldlM
        (fun acc conv => conv.2.foldlM (fun a cdc => deriveStep conv.1 a cdc.2) acc)
          init) = _
      rw [List.foldlM_cons]
      show (conv.2.foldlM (fun a cdc => deriveStep conv.1 a cdc.2) init) >>=
        (fun a => rest.foldlM _ a) = _
      rw [foldlM_deriveStep conv.1 conv.2 init hall]
      by_cases hA : strContains conv.1 "ADC" = true
      · rw [if_pos hA]
        exact ih _ h2
      · rw [if_neg hA]
        exact ih _ h2

theorem derive_empty_group_fails_witness :
    deriveLists [("ADC0", [("C0", [("F0", ["voltage0_q"])])])] ⟨[], [], [], []⟩ =
      Except.error "IndexError" :=
  derive_empty_group_fails [("ADC0", [("C0", [("F0", ["voltage0_q"])])])]
    ⟨[], [], [], []⟩ (by decide)

/-- C4: the tx_main_ffh_frequency setter first reads the
tx_main_ffh_index property; when that index reads zero it raises the
documented user error naming the precondition and performs no device
write - the returned state is the input state, so in particular the
frequency attribute still reads its old value - and when the index is
non-zero the write proceeds. -/
theorem ffh_frequency_precondition (s : Ad9081) (value : Int) :
    (tx_main_ffh_index_get s = 0 →
      tx_main_ffh_frequency_set s value =
        (Except.error "To set a FFH NCO bank frequency, tx_main_ffh_index must > 0", s) ∧
      tx_main_ffh_frequency_get (tx_main_ffh_frequency_set s value).2 =
        tx_main_ffh_frequency_get s) ∧
    (tx_main_ffh_index_get s ≠ 0 →
      tx_main_ffh_frequency_set s value = (Except.ok (),
        { s with dev := _set_iio_attr s.dev "voltage0_i" "main_ffh_frequency" true value })) := by
  constructor
  · intro h
    constructor
    · unfold tx_main_ffh_frequency_set
      rw [if_pos h]
    · unfold tx_main_ffh_frequency_set
      rw [if_pos h]
  · intro h
    unfold tx_main_ffh_frequency_set
    rw [if_neg h]

/-- An all-zero device state and object used as concrete inputs. -/
def dev0 : Dev := ⟨fun _ _ _ => 0, fun _ _ _ => "", fun _ => 0⟩

def obj0 : Ad9081 := ⟨[], [], [], [], [], [], [], [], dev0⟩

theorem ffh_frequency_precondition_witness :
    tx_main_ffh_index_get obj0 = 0 ∧
    tx_main_ffh_frequency_set obj0 7 =
      (Except.error "To set a FFH NCO bank frequency, tx_main_ffh_index must > 0", obj0) :=
  ⟨rfl, ((ffh_frequency_precondition obj0 7).1 rfl).1⟩

/-- Equality of all topology data of two object states: the path map
and every derived channel-name list. -/
def sameTopology (a b : Ad9081) : Prop :=
  a.path_map = b.path_map ∧
  a.rx_channel_names = b.rx_channel_names ∧
  a.tx_channel_names = b.tx_channel_names ∧
  a.dds_channel_names = b.dds_channel_names ∧
  a.rx_coarse_ddc_channel_names = b.rx_coarse_ddc_channel_names ∧
  a.rx_fine_ddc_channel_names = b.rx_fine_ddc_channel_names ∧
  a.tx_coarse_duc_channel_names = b.tx_coarse_duc_channel_names ∧
  a.tx_fine_duc_channel_names = b.tx_fine_duc_channel_names

/-- C9: every attribute-facade setter leaves the path map and all
derived channel-name lists unchanged, touching only the external device
state; the getters are read-only functions of the state by
construction, so the topology data built at construction is immutable
under the whole facade surface. -/
theorem facade_preserves_topology (s : Ad9081) (v : List Int) (n : Int) (t : String) :
    sameTopology (rx_channel_nco_frequencies_set s v) s ∧
    sameTopology (rx_channel_nco_phases_set s v) s ∧
    sameTopology (rx_main_nco_frequencies_set s v) s ∧
    sameTopology (rx_main_nco_phases_set s v) s ∧
    sameTopology (rx_test_mode_set s t) s ∧
    sameTopology (rx_nyquist_zone_set s t) s ∧
    sameTopology (tx_channel_nco_frequencies_set s v) s ∧
    sameTopology (tx_channel_nco_phases_set s v) s ∧
    sameTopology (tx_main_nco_frequencies_set s v) s ∧
    sameTopology (tx_main_nco_phases_set s v) s ∧
    sameTopology (tx_main_ffh_frequency_set s n).2 s ∧
    sameTopology (tx_main_ffh_index_set s n) s ∧
    sameTopology (tx_main_ffh_mode_set s n) s ∧
    sameTopology (loopback_mode_set s n) s := by
  have base : ∀ d : Dev, sameTopology { s with dev := d } s :=
    fun d => ⟨rfl, rfl, rfl, rfl, rfl, rfl, rfl, rfl⟩
  refine ⟨base _, base _, base _, base _, base _, base _, base _, base _, base _,
    base _, ?_, base _, base _, base _⟩
  unfold tx_main_ffh_frequency_set
  by_cases h : tx_main_ffh_index_get s = 0
  · rw [if_pos h]
    exact ⟨rfl, rfl, rfl, rfl, rfl, rfl, rfl, rfl⟩
  · rw [if_neg h]
    exact base _

end AD9081
